import Mathlib

/-!
Verification of the buyruk-cli storage subsystem (package `internal/storage`).

Paths are modelled as lists of characters (`GoStr`), mirroring Go strings on a
Unix filesystem where the separator is `/`.  The functions `splitSlash`,
`clean`, `joinl`, `dirOf`, `relStr` model `strings.Split(_, "/")`,
`filepath.Clean`, `filepath.Join`, `filepath.Dir` and `filepath.Rel`
respectively.
-/

/-- Go strings, modelled as lists of characters. -/
abbrev GoStr := List Char

/-- Coerce a Lean string literal to a `GoStr` (used for concrete inputs only). -/
def gs (s : String) : GoStr := s.data

/-- The component `"."`. -/
def dotC : GoStr := [ '.' ]

/-- The component `".."`. -/
def dotdotC : GoStr := [ '.', '.' ]

/-- Models `strings.Split(p, "/")`: splits on `'/'`, keeping empty fields. -/
def splitSlash : GoStr → List GoStr
  | [] => [[]]
  | c :: rest =>
    if c = '/' then [] :: splitSlash rest
    else
      match splitSlash rest with
      | [] => [[ c ]]
      | g :: gs => (c :: g) :: gs

/-- Models `filepath.IsAbs` on Unix: the path begins with `'/'`. -/
def isAbs : GoStr → Bool
  | c :: _ => c = '/'
  | [] => false

/-- One step of `filepath.Clean`'s element processing, operating on a stack of
already-emitted components (head = most recent component). -/
def cleanStep (abs : Bool) (stk : List GoStr) (c : GoStr) : List GoStr :=
  if c = [] ∨ c = dotC then stk
  else if c = dotdotC then
    match stk with
    | [] => if abs then [] else [ dotdotC ]
    | t :: rest => if t = dotdotC then dotdotC :: t :: rest else rest
  else c :: stk

/-- The component-level part of `filepath.Clean`: process raw components. -/
def cleanC (abs : Bool) (cs : List GoStr) : List GoStr :=
  (cs.foldl (cleanStep abs) []).reverse

/-- Joins components with `'/'`. -/
def intercSlash : List GoStr → GoStr
  | [] => []
  | [ c ] => c
  | c :: rest => c ++ '/' :: intercSlash rest

/-- Renders an (absolute?, components) pair back to a path string, as
`filepath.Clean` does: an empty relative result renders as `"."`, an empty
absolute result as `"/"`. -/
def renderA (abs : Bool) (cs : List GoStr) : GoStr :=
  if abs then '/' :: intercSlash cs
  else if cs = [] then dotC else intercSlash cs

/-- Models `filepath.Clean` on Unix paths. -/
def clean (p : GoStr) : GoStr :=
  renderA (isAbs p) (cleanC (isAbs p) (splitSlash p))

/-- Models `filepath.Join`: drop empty elements, join with `'/'`, `Clean` the
result; all elements empty yields the empty string. -/
def joinl (xs : List GoStr) : GoStr :=
  if xs.filter (fun x => ¬ x = []) = [] then []
  else clean (intercSlash (xs.filter (fun x => ¬ x = [])))

/-- The characters of a path up to and including its last `'/'`, if any. -/
def upToLastSlash : GoStr → Option GoStr
  | [] => none
  | c :: rest =>
    match upToLastSlash rest with
    | some t => some (c :: t)
    | none => if c = '/' then some [ '/' ] else none

/-- Models `filepath.Dir`: everything up to the final element, `Clean`ed;
`"."` when the path has no separator. -/
def dirOf (p : GoStr) : GoStr :=
  match upToLastSlash p with
  | none => dotC
  | some t => clean t

-- Validation of the path model against documented Go behaviour.
example : clean (gs ("")) = gs (".") := by decide
example : clean (gs ("abc/def")) = gs ("abc/def") := by decide
example : clean (gs ("a/b/..")) = gs ("a") := by decide
example : clean (gs ("a/../b")) = gs ("b") := by decide
example : clean (gs ("../..")) = gs ("../..") := by decide
example : clean (gs ("/../a")) = gs ("/a") := by decide
example : clean (gs ("/")) = gs ("/") := by decide
example : clean (gs ("./a")) = gs ("a") := by decide
example : clean (gs ("a//b")) = gs ("a/b") := by decide
example : clean (gs ("a/")) = gs ("a") := by decide
example : clean (gs ("/a/b/../../..")) = gs ("/") := by decide
example : clean (gs ("T-123")) = gs ("T-123") := by decide
example : clean (gs ("a/b")) = gs ("a/b") := by decide
example : clean (gs ("../../etc/passwd")) = gs ("../../etc/passwd") := by decide
example : joinl [gs ("/cfg"), gs ("projects"), gs ("K")] = gs ("/cfg/projects/K") := by decide
example : joinl [gs (""), gs ("projects")] = gs ("projects") := by decide
example : dirOf (gs ("a/b.json")) = gs ("a") := by decide
example : dirOf (gs ("b.json")) = gs (".") := by decide
example : dirOf (gs ("/b")) = gs ("/") := by decide

/-! ## Error taxonomy and result type of the storage layer -/

/-- Error kinds of the storage layer, one constructor per `return ...error...`
site of the modelled functions. -/
inductive Err where
  | invalidId
  | relFail
  | extractBad
  | lockTimeout
  | lockCreateFail
  | beginWriteFail
  | beginRenameFail
  | marshalFail
  | tmpWriteFail
  | renameFail
  | txDecodeFail
  deriving DecidableEq, Repr

/-- Result of a fallible storage operation (`(T, error)` in Go). -/
inductive ERes (α : Type) where
  | ok (a : α)
  | err (e : Err)
  deriving DecidableEq, Repr

/-! ## Path resolver (`internal/storage/storage.go`)

`ConfigDir` resolves `os.UserConfigDir()/buyruk` once and caches it; the
resolved directory is passed here explicitly as the parameter `cfg`.  With
`cfg` in hand the Go functions can fail only at their identifier checks. -/

/-- Models `ProjectDir(projectKey)`: `Join(configDir, "projects", Clean(key))`.
The project key is cleaned but never compared or rejected; given a resolved
config dir the function always succeeds. -/
def ProjectDir (cfg key : GoStr) : ERes GoStr :=
  ERes.ok (joinl [cfg, gs ("projects"), clean key])

/-- The path `ProjectDir` returns (total form, for composition). -/
def ProjectDirS (cfg key : GoStr) : GoStr :=
  joinl [cfg, gs ("projects"), clean key]

/-- Models `IssuesDir(projectKey)`: `Join(ProjectDir(key), "issues")`. -/
def IssuesDirS (cfg key : GoStr) : GoStr :=
  joinl [ProjectDirS cfg key, gs ("issues")]

/-- Models `EpicsDir(projectKey)`: `Join(ProjectDir(key), "epics")`. -/
def EpicsDirS (cfg key : GoStr) : GoStr :=
  joinl [ProjectDirS cfg key, gs ("epics")]

/-- The nonempty components of an already-`Clean`ed path, as used by
`filepath.Rel`'s segment comparison (`"."` has no components). -/
def compsOfClean (p : GoStr) : List GoStr :=
  if p = dotC then [] else (splitSlash p).filter (fun c => ¬ c = [])

/-- Strip the common leading components of two component lists. -/
def stripCommon : List GoStr → List GoStr → List GoStr × List GoStr
  | b :: bs, t :: ts =>
    if b = t then stripCommon bs ts else (b :: bs, t :: ts)
  | bs, ts => (bs, ts)

/-- Models `filepath.Rel(base, targ)` for arguments that are already `Clean`
(in `IssuePath`/`EpicPath` both arguments are outputs of `Join`, hence clean,
so `Rel`'s own re-cleaning is the identity there): equal paths are `"."`;
mixed absolute/relative arguments are an error; otherwise strip the common
prefix, fail if the remaining base contains `".."`, and prepend one `".."`
per remaining base component. -/
def relStr (base targ : GoStr) : ERes GoStr :=
  if base = targ then ERes.ok dotC
  else if ¬ isAbs base = isAbs targ then ERes.err Err.relFail
  else if (stripCommon (compsOfClean base) (compsOfClean targ)).1.any
      (fun c => c = dotdotC) then ERes.err Err.relFail
  else ERes.ok (renderA false
    (List.replicate (stripCommon (compsOfClean base) (compsOfClean targ)).1.length dotdotC ++
      (stripCommon (compsOfClean base) (compsOfClean targ)).2))

/-- Models `strings.HasPrefix(s, "..")`. -/
def startsDotDot : GoStr → Bool
  | '.' :: '.' :: _ => true
  | _ => false

/-- The shared body of `IssuePath` and `EpicPath`: clean the record id,
reject when cleaning changed it or it is absolute, join `<id>.json` onto the
collection directory, and reject when the relative path from the collection
directory back to the candidate begins with `".."`. -/
def recordPath (collDir id : GoStr) : ERes GoStr :=
  if ¬ clean id = id ∨ isAbs (clean id) then ERes.err Err.invalidId
  else
    match relStr collDir (joinl [collDir, clean id ++ gs (".json")]) with
    | ERes.err _ => ERes.err Err.relFail
    | ERes.ok relPath =>
      if startsDotDot relPath then ERes.err Err.invalidId
      else ERes.ok (joinl [collDir, clean id ++ gs (".json")])

/-- Models `IssuePath(projectKey, issueID)` from `internal/storage/storage.go`. -/
def IssuePath (cfg key id : GoStr) : ERes GoStr :=
  recordPath (IssuesDirS cfg key) id

/-- Models `EpicPath(projectKey, epicID)` from `internal/storage/storage.go`. -/
def EpicPath (cfg key id : GoStr) : ERes GoStr :=
  recordPath (EpicsDirS cfg key) id

-- Validation on concrete inputs (mirroring `storage_test.go` expectations).
example :
    IssuePath (gs ("/home/u/.config/buyruk")) (gs ("TEST-PROJ")) (gs ("T-123")) =
      ERes.ok (gs ("/home/u/.config/buyruk/projects/TEST-PROJ/issues/T-123.json")) := by
  decide
example :
    IssuePath (gs ("/cfg")) (gs ("TEST-PROJ")) (gs ("../../../etc/passwd")) =
      ERes.err Err.invalidId := by decide
example :
    IssuePath (gs ("/cfg")) (gs ("TEST-PROJ")) (gs ("/absolute/path")) =
      ERes.err Err.invalidId := by decide
example :
    EpicPath (gs ("/cfg")) (gs ("TEST-PROJ")) (gs ("../../../../root")) =
      ERes.err Err.invalidId := by decide
example :
    IssuePath (gs ("/cfg")) (gs ("TEST-PROJ")) (gs ("a/b")) =
      ERes.ok (gs ("/cfg/projects/TEST-PROJ/issues/a/b.json")) := by decide
example : ProjectDir (gs ("/cfg")) (gs ("a/../b")) = ERes.ok (gs ("/cfg/projects/b")) := by
  decide

/-! ## Filesystem state and fallible primitives

The filesystem is a finite map from paths to file contents plus the set of
directories that `os.MkdirAll` has been asked to create.  JSON encoding and
decoding of the transaction log is modelled by the injective constructor
`FData.tx` (marshalling a `TransactionLog` cannot fail in Go for this struct);
ordinary record bytes are `FData.bytes`.

Failure injection: each `os.WriteFile` / `os.OpenFile+Write` / `os.Rename`
call consumes one tick of the environment oracle `Env`; a write may fail
cleanly (no file created) or fail after creating the file with partial
content, which is how `os.WriteFile` (create/truncate, then write) can fail
on a real system.  `os.Remove` of an existing or absent path is modelled as
always succeeding (deletions in the map model cannot run out of space), and
`os.MkdirAll` likewise. -/

/-- Content of a file in the model. -/
inductive FData where
  | bytes (b : GoStr)
  | tx (op md : GoStr)
  deriving DecidableEq, Repr

/-- Outcome injected for the n-th fallible filesystem call. -/
inductive OpRes where
  | ok
  | failNone
  | failJunk (junk : GoStr)
  deriving DecidableEq, Repr

/-- Failure-injection oracle: outcome of the n-th fallible call. -/
abbrev Env := Nat → OpRes

/-- The environment in which every call succeeds. -/
def envOK : Env := fun _ => OpRes.ok

/-- Filesystem plus created directories plus the fallible-call counter. -/
structure St where
  fs : List (GoStr × FData)
  dirs : List GoStr
  tick : Nat
  deriving DecidableEq, Repr

/-- Look a path up in the file map. -/
def lookupFs : List (GoStr × FData) → GoStr → Option FData
  | [], _ => none
  | (q, c) :: rest, p => if q = p then some c else lookupFs rest p

/-- Delete a path from the file map. -/
def removeFs : List (GoStr × FData) → GoStr → List (GoStr × FData)
  | [], _ => []
  | kv :: rest, p => if kv.1 = p then removeFs rest p else kv :: removeFs rest p

/-- Set a path in the file map (create or overwrite). -/
def setFs (fs : List (GoStr × FData)) (p : GoStr) (c : FData) : List (GoStr × FData) :=
  (p, c) :: removeFs fs p

/-- Models `os.WriteFile(p, c, 0644)`; returns `false` on injected failure,
possibly leaving a partially-written file behind. -/
def osWriteFile (e : Env) (s : St) (p : GoStr) (c : FData) : St × Bool :=
  match e s.tick with
  | OpRes.ok => (⟨setFs s.fs p c, s.dirs, s.tick + 1⟩, true)
  | OpRes.failNone => (⟨s.fs, s.dirs, s.tick + 1⟩, false)
  | OpRes.failJunk j => (⟨setFs s.fs p (FData.bytes j), s.dirs, s.tick + 1⟩, false)

/-- Models `os.Rename(src, dst)`; fails when the source is absent or on
injected failure, in which case no file changes. -/
def osRename (e : Env) (s : St) (src dst : GoStr) : St × Bool :=
  match e s.tick with
  | OpRes.ok =>
    match lookupFs s.fs src with
    | some c => (⟨setFs (removeFs s.fs src) dst c, s.dirs, s.tick + 1⟩, true)
    | none => (⟨s.fs, s.dirs, s.tick + 1⟩, false)
  | _ => (⟨s.fs, s.dirs, s.tick + 1⟩, false)

/-- Models `os.Remove(p)` (always succeeds in the map model; the sole
handled failure in the source, `IsNotExist`, is a success path there too). -/
def osRemove (s : St) (p : GoStr) : St :=
  ⟨removeFs s.fs p, s.dirs, s.tick⟩

/-- Models `os.MkdirAll(d, 0755)`. -/
def osMkdirAll (s : St) (d : GoStr) : St :=
  ⟨s.fs, d :: s.dirs, s.tick⟩

/-- Models `os.Stat(p)` used as an existence probe. -/
def osStat (s : St) (p : GoStr) : Bool :=
  (lookupFs s.fs p).isSome

/-- The fixed temporary-file suffix `".tmp"`. -/
def tmpSuffix : GoStr := gs (".tmp")

/-! ## Atomic writer (`WriteAtomic`, src/unnamed/part_010) -/

/-- Models `EnsureDir(filePath)`: `os.MkdirAll(filepath.Dir(filePath), 0755)`. -/
def EnsureDir (s : St) (filePath : GoStr) : St :=
  osMkdirAll s (dirOf filePath)

/-- Models `WriteAtomic(path, data)`: ensure the parent directory, write
`path+".tmp"`, rename it onto `path`; on rename failure remove the temp file.
On temp-write failure the source returns without removing anything. -/
def WriteAtomic (e : Env) (s : St) (path data : GoStr) : St × ERes Unit :=
  let s1 := EnsureDir s path
  let (s2, w) := osWriteFile e s1 (path ++ tmpSuffix) (FData.bytes data)
  if w = false then (s2, ERes.err Err.tmpWriteFail)
  else
    let (s3, r) := osRename e s2 (path ++ tmpSuffix) path
    if r = false then (osRemove s3 (path ++ tmpSuffix), ERes.err Err.renameFail)
    else (s3, ERes.ok ())

/-! ## Transaction marker (src/unnamed/part_011) -/

/-- The marker file name `".buyruk_pending"`. -/
def markerName : GoStr := gs (".buyruk_pending")

/-- The lock file name `".buyruk.lock"`. -/
def lockName : GoStr := gs (".buyruk.lock")

/-- Models `Join(ProjectDir(key), ".buyruk_pending")`. -/
def markerPathOf (cfg key : GoStr) : GoStr :=
  joinl [ProjectDirS cfg key, markerName]

/-- Models `Join(ProjectDir(key), ".buyruk.lock")`. -/
def lockPathOf (cfg key : GoStr) : GoStr :=
  joinl [ProjectDirS cfg key, lockName]

/-- Models `BeginTransaction(projectKey, operation, metadata)`: ensure the
project directory, then write the serialized `TransactionLog` to the marker's
`.tmp` sibling and rename it onto the marker path. -/
def BeginTransaction (cfg : GoStr) (e : Env) (s : St) (key op md : GoStr) : St × ERes Unit :=
  let s1 := osMkdirAll s (ProjectDirS cfg key)
  let mp := markerPathOf cfg key
  let (s2, w) := osWriteFile e s1 (mp ++ tmpSuffix) (FData.tx op md)
  if w = false then (s2, ERes.err Err.beginWriteFail)
  else
    let (s3, r) := osRename e s2 (mp ++ tmpSuffix) mp
    if r = false then (s3, ERes.err Err.beginRenameFail)
    else (s3, ERes.ok ())

/-- Models `CommitTransaction(projectKey)`: remove the marker; an already
absent marker is fine. -/
def CommitTransaction (cfg : GoStr) (s : St) (key : GoStr) : St × ERes Unit :=
  (osRemove s (markerPathOf cfg key), ERes.ok ())

/-- Models `RollbackTransaction(projectKey)`, whose body is
`return CommitTransaction(projectKey)`. -/
def RollbackTransaction (cfg : GoStr) (s : St) (key : GoStr) : St × ERes Unit :=
  CommitTransaction cfg s key

/-- Models `CheckPendingTransaction(projectKey)` from src/unnamed/part_011:
stat the marker (absence is `(false, nil, nil)`), read it, unmarshal it, and
return `transaction.Metadata` — the operation name is parsed but not
returned. -/
def CheckPendingTransaction (cfg : GoStr) (s : St) (key : GoStr) :
    ERes (Bool × Option GoStr) :=
  match lookupFs s.fs (markerPathOf cfg key) with
  | none => ERes.ok (false, none)
  | some (FData.tx _ md) => ERes.ok (true, some md)
  | some (FData.bytes _) => ERes.err Err.txDecodeFail

/-! ## Advisory lock (`AcquireLock`, src/unnamed/part_009)

`AcquireLock` creates the lock file with `os.OpenFile(lockPath,
O_WRONLY|O_CREATE|O_EXCL, 0644)`, writes the pid, and returns a release
closure that runs `os.Remove(lockPath)`; while the file exists it sleeps
100 ms and retries until 5 s have passed.  Three views are used:

* `openFileExcl` / `LockStep`: the create-only-if-absent primitive and the
  interleaving of several processes around one lock file (claim C1);
* `AcquireLockLoop`: the timed retry loop of a single caller, with the
  presence of the lock file over time given by an oracle (claim C9);
* `AcquireLockSeq`: the specialization used inside the sequential composite
  `WriteJSONAtomic` model, where no concurrent process runs, so a held lock
  can only end in the 5 s timeout and an absent lock is acquired at once. -/

/-- Models `os.OpenFile(p, O_WRONLY|O_CREATE|O_EXCL, 0644)` on the lock file:
`some` (file created) exactly when the file was absent, `none` (`IsExist`
error) when it was present. -/
def openFileExcl (present : Bool) : Option Unit :=
  if present then none else some ()

/-- Global state of one project's lock file: whether it exists, and which
processes currently observe themselves as its successful creator. -/
structure LockSt where
  present : Bool
  holders : List Nat
  deriving DecidableEq, Repr

/-- Interleaved steps of processes running `AcquireLock`'s create attempt and
the release closure (also run on a failed pid write). -/
inductive LockStep : LockSt → LockSt → Prop where
  | createOk (p : Nat) (s : LockSt) :
      openFileExcl s.present = some () →
      LockStep s ⟨true, p :: s.holders⟩
  | createExist (p : Nat) (s : LockSt) :
      openFileExcl s.present = none →
      LockStep s s
  | unlock (p : Nat) (s : LockSt) :
      p ∈ s.holders →
      LockStep s ⟨false, s.holders.erase p⟩

/-- States reachable from "no lock file, no holder". -/
def LockReach (s : LockSt) : Prop :=
  Relation.ReflTransGen LockStep ⟨false, []⟩ s

/-- Models `100 * time.Millisecond`, the poll interval, in milliseconds. -/
def checkIntervalMs : Nat := 100

/-- Models `5 * time.Second`, the acquisition timeout, in milliseconds. -/
def lockTimeoutMs : Nat := 5000

/-- Result of the retry loop. -/
inductive AcquireOutcome where
  | acquired (t : Nat)
  | timeoutErr
  | stuck
  deriving DecidableEq, Repr

/-- The retry loop of `AcquireLock` (src/unnamed/part_009) for one caller:
at elapsed time `t` attempt the exclusive create (`present t` tells whether
the lock file exists then); on `IsExist`, fail with the timeout error once
`t` is past the deadline, otherwise sleep `checkIntervalMs` and retry.
`fuel` bounds the recursion; `AcquireOutcome.stuck` marks exhausted fuel and
is proven unreachable for sufficient fuel. -/
def AcquireLockLoop (present : Nat → Bool) : Nat → Nat → AcquireOutcome
  | 0, _ => AcquireOutcome.stuck
  | fuel + 1, t =>
    if present t then
      if lockTimeoutMs < t then AcquireOutcome.timeoutErr
      else AcquireLockLoop present fuel (t + checkIntervalMs)
    else AcquireOutcome.acquired t

/-- The pid bytes written into the lock file (diagnostic content only). -/
def pidBytes : GoStr := gs ("12345")

/-- Behaviour of `AcquireLock` inside the sequential
`WriteJSONAtomic` model: with no concurrent process to release the lock,
a held lock times out after the 5 s window and an absent lock is created
by the exclusive-create write (which may still fail as an injected I/O
error, after which the source removes the lock file and fails). -/
def AcquireLockSeq (cfg : GoStr) (e : Env) (s : St) (key : GoStr) : St × ERes Unit :=
  if osStat s (lockPathOf cfg key) then (s, ERes.err Err.lockTimeout)
  else
    let (s1, w) := osWriteFile e s (lockPathOf cfg key) (FData.bytes pidBytes)
    if w = false then (osRemove s1 (lockPathOf cfg key), ERes.err Err.lockCreateFail)
    else (s1, ERes.ok ())

/-! ## Composite write (`WriteJSONAtomic`, src/unnamed/part_010) -/

/-- The literal component `"projects"`. -/
def projectsComp : GoStr := gs ("projects")

/-- Index of the last occurrence of `"projects"` in a component list
(the source searches from the end for the innermost segment). -/
def lastProj : List GoStr → Option Nat
  | [] => none
  | c :: cs =>
    match lastProj cs with
    | some i => some (i + 1)
    | none => if c = projectsComp then some 0 else none

/-- Models `extractProjectKeyFromPath(path)`: clean the path, split on the
separator, find the innermost `"projects"` component; it must be preceded by
at least one component (`projectsIndex <= 0` fails, which also covers the
not-found index `-1`) and followed by the project-key component. -/
def extractProjectKeyFromPath (path : GoStr) : ERes GoStr :=
  match lastProj (splitSlash (clean path)) with
  | none => ERes.err Err.extractBad
  | some i =>
    if i = 0 ∨ (splitSlash (clean path)).length ≤ i + 1 then ERes.err Err.extractBad
    else ERes.ok ((splitSlash (clean path)).getD (i + 1) [])

/-- Models `WriteJSONAtomic(path, v)` (src/unnamed/part_010): extract the
project key from the path, acquire the lock (released on every later exit),
begin a transaction whose metadata records the target file, marshal `v`
(the marshalled bytes, or `none` for a marshalling failure, are passed in as
`mres`), write atomically, and commit; a success flag confines the deferred
rollback to the failure paths. -/
def WriteJSONAtomic (cfg : GoStr) (e : Env) (s : St) (path : GoStr) (mres : Option GoStr) :
    St × ERes Unit :=
  match extractProjectKeyFromPath path with
  | ERes.err er => (s, ERes.err er)
  | ERes.ok key =>
    match AcquireLockSeq cfg e s key with
    | (s1, ERes.err er) => (s1, ERes.err er)
    | (s1, ERes.ok _) =>
      match BeginTransaction cfg e s1 key (gs ("write_json")) path with
      | (s2, ERes.err er) => (osRemove s2 (lockPathOf cfg key), ERes.err er)
      | (s2, ERes.ok _) =>
        match mres with
        | none =>
          let s3 := (RollbackTransaction cfg s2 key).1
          (osRemove s3 (lockPathOf cfg key), ERes.err Err.marshalFail)
        | some data =>
          match WriteAtomic e s2 path data with
          | (s3, ERes.err er) =>
            let s4 := (RollbackTransaction cfg s3 key).1
            (osRemove s4 (lockPathOf cfg key), ERes.err er)
          | (s3, ERes.ok _) =>
            let s4 := (CommitTransaction cfg s3 key).1
            (osRemove s4 (lockPathOf cfg key), ERes.ok ())

/-- The empty starting state. -/
def st0 : St := ⟨[], [], 0⟩

-- Validation of the composite on concrete inputs (cf. TestWriteJSONAtomic).
example :
    (WriteJSONAtomic (gs ("/cfg")) envOK st0
        (gs ("/cfg/projects/TEST-PROJ/project.json")) (some (gs ("data")))).2 =
      ERes.ok () := by decide
example :
    lookupFs (WriteJSONAtomic (gs ("/cfg")) envOK st0
        (gs ("/cfg/projects/TEST-PROJ/project.json")) (some (gs ("data")))).1.fs
        (gs ("/cfg/projects/TEST-PROJ/project.json")) =
      some (FData.bytes (gs ("data"))) := by decide
example :
    lookupFs (WriteJSONAtomic (gs ("/cfg")) envOK st0
        (gs ("/cfg/projects/TEST-PROJ/project.json")) (some (gs ("data")))).1.fs
        (gs ("/cfg/projects/TEST-PROJ/.buyruk_pending")) = none := by decide
example :
    lookupFs (WriteJSONAtomic (gs ("/cfg")) envOK st0
        (gs ("/cfg/projects/TEST-PROJ/project.json")) (some (gs ("data")))).1.fs
        (gs ("/cfg/projects/TEST-PROJ/.buyruk.lock")) = none := by decide
example :
    (WriteJSONAtomic (gs ("/cfg")) envOK st0 (gs ("/cfg/config.json")) (some (gs ("d")))).2 =
      ERes.err Err.extractBad := by decide
example : extractProjectKeyFromPath (gs ("/cfg/projects/K/issues/T-1.json")) =
    ERes.ok (gs ("K")) := by decide
example : extractProjectKeyFromPath (gs ("projects/K/x")) = ERes.err Err.extractBad := by
  decide
example : extractProjectKeyFromPath (gs ("/a/projects/K/projects")) =
    ERes.err Err.extractBad := by decide

/-! ## Helper lemmas about the file map -/

theorem lookup_remove_self (fs : List (GoStr × FData)) (p : GoStr) :
    lookupFs (removeFs fs p) p = none := by
  induction fs with
  | nil => rfl
  | cons kv rest ih =>
    by_cases hk : kv.1 = p
    · simpa [removeFs, hk] using ih
    · simpa [removeFs, hk, lookupFs] using ih

theorem lookup_remove_other (fs : List (GoStr × FData)) (p q : GoStr) (h : ¬ q = p) :
    lookupFs (removeFs fs p) q = lookupFs fs q := by
  induction fs with
  | nil => rfl
  | cons kv rest ih =>
    by_cases hk : kv.1 = p
    · rw [removeFs, if_pos hk, ih, lookupFs, if_neg (fun hq => h (hq.symm.trans hk))]
    · rw [removeFs, if_neg hk]
      by_cases hq : kv.1 = q
      · simp [lookupFs, hq]
      · simp [lookupFs, hq, ih]

theorem lookup_set_self (fs : List (GoStr × FData)) (p : GoStr) (c : FData) :
    lookupFs (setFs fs p c) p = some c := by
  simp [setFs, lookupFs]

theorem lookup_set_other (fs : List (GoStr × FData)) (p q : GoStr) (c : FData)
    (h : ¬ q = p) : lookupFs (setFs fs p c) q = lookupFs fs q := by
  rw [setFs, lookupFs, if_neg (fun hq => h hq.symm)]
  exact lookup_remove_other fs p q h

theorem remove_absent (fs : List (GoStr × FData)) (p : GoStr)
    (h : lookupFs fs p = none) : removeFs fs p = fs := by
  induction fs with
  | nil => rfl
  | cons kv rest ih =>
    rw [lookupFs] at h
    by_cases hk : kv.1 = p
    · rw [if_pos hk] at h; exact absurd h (by simp)
    · rw [if_neg hk] at h
      rw [removeFs, if_neg hk, ih h]

theorem tmpSuffix_len : tmpSuffix.length = 4 := by decide

theorem append_tmp_ne (p : GoStr) : ¬ (p ++ tmpSuffix = p) := by
  intro h
  have h2 := congrArg List.length h
  rw [List.length_append, tmpSuffix_len] at h2
  omega

theorem append_tmp_ne' (p : GoStr) : ¬ (p = p ++ tmpSuffix) := by
  intro h
  exact append_tmp_ne p h.symm

/-! ## Claim C1 -/

theorem lock_inv_step {a b : LockSt} (h : LockStep a b)
    (ha : a.holders.length ≤ 1 ∧ (a.present = false → a.holders = [])) :
    b.holders.length ≤ 1 ∧ (b.present = false → b.holders = []) := by
  cases h with
  | createOk p _ hp =>
    have hpres : a.present = false := by
      cases hcp : a.present
      · rfl
      · rw [hcp] at hp; simp [openFileExcl] at hp
    have hnil : a.holders = [] := ha.2 hpres
    simp [hnil]
  | createExist p _ hp => exact ha
  | unlock p _ hp =>
    constructor
    · calc (a.holders.erase p).length ≤ a.holders.length :=
            (List.erase_sublist p a.holders).length_le
        _ ≤ 1 := ha.1
    · intro _
      have h1 : a.holders.length ≤ 1 := ha.1
      cases hh : a.holders with
      | nil => simp [hh]
      | cons x rest =>
        rw [hh] at h1 hp
        have hrest : rest = [] := by
          cases rest with
          | nil => rfl
          | cons y r2 => simp at h1
        subst hrest
        simp at hp
        simp [hh, hp]

theorem lock_inv {s : LockSt} (h : LockReach s) :
    s.holders.length ≤ 1 ∧ (s.present = false → s.holders = []) := by
  induction h with
  | refl => exact ⟨by simp, fun _ => rfl⟩
  | tail _ step ih => exact lock_inv_step step ih

/-- Claim C1: `AcquireLock` creates the lock file with the
create-only-if-absent primitive `openFileExcl` (`O_CREATE|O_EXCL`), which
succeeds exactly when the file is absent, so in every reachable interleaving
of acquiring and releasing processes at most one process at a time observes
itself as the successful creator of the project's lock file. -/
theorem C1_lock_mutual_exclusion (s : LockSt) (h : LockReach s) :
    s.holders.length ≤ 1 :=
  (lock_inv h).1

/-- Witness for C1: the state reached by one successful exclusive creation. -/
theorem C1_lock_mutual_exclusion_witness :
    (LockSt.mk true [42]).holders.length ≤ 1 :=
  C1_lock_mutual_exclusion ⟨true, [42]⟩
    (Relation.ReflTransGen.single (LockStep.createOk 42 ⟨false, []⟩ rfl))

/-! ## Claim C9 -/

theorem loop_no_stuck (present : Nat → Bool) :
    ∀ fuel t, lockTimeoutMs < t + checkIntervalMs * fuel →
      ¬ AcquireLockLoop present (fuel + 1) t = AcquireOutcome.stuck := by
  intro fuel
  induction fuel with
  | zero =>
    intro t ht
    simp only [AcquireLockLoop]
    split
    · rw [if_pos (by simpa using ht)]
      simp
    · simp
  | succ n ih =>
    intro t ht
    simp only [AcquireLockLoop]
    split
    · split
      · simp
      · exact ih (t + checkIntervalMs) (by rw [Nat.mul_succ] at ht; omega)
    · simp

/-- Claim C9: with the lock file already present, `AcquireLock` retries at the
fixed 100 ms interval within the 5 s window; once past the deadline with the
lock still present it returns the timeout error; the loop always terminates
(52 iterations of fuel are never exhausted), never blocking indefinitely.
Here `present t` says whether the lock file exists at elapsed time `t` ms. -/
theorem C9_lock_retry_timeout (present : Nat → Bool) :
    checkIntervalMs = 100 ∧
    lockTimeoutMs = 5000 ∧
    (¬ AcquireLockLoop present 52 0 = AcquireOutcome.stuck) ∧
    ((∀ t, present t = true) → AcquireLockLoop present 52 0 = AcquireOutcome.timeoutErr) ∧
    (∀ fuel t, present t = true → ¬ lockTimeoutMs < t →
      AcquireLockLoop present (fuel + 1) t =
        AcquireLockLoop present fuel (t + checkIntervalMs)) ∧
    (∀ fuel t, present t = false →
      AcquireLockLoop present (fuel + 1) t = AcquireOutcome.acquired t) := by
  refine ⟨rfl, rfl, loop_no_stuck present 51 0 (by decide), ?_, ?_, ?_⟩
  · intro h
    have hp : present = fun _ => true := funext h
    subst hp
    decide
  · intro fuel t hp hd
    simp [AcquireLockLoop, hp, hd]
  · intro fuel t hp
    simp [AcquireLockLoop, hp]

/-- Witness for C9: a permanently held lock yields the timeout error and the
loop is not stuck. -/
theorem C9_lock_retry_timeout_witness :
    AcquireLockLoop (fun _ => true) 52 0 = AcquireOutcome.timeoutErr ∧
    ¬ AcquireLockLoop (fun _ => true) 52 0 = AcquireOutcome.stuck :=
  ⟨(C9_lock_retry_timeout (fun _ => true)).2.2.2.1 (fun _ => rfl),
   (C9_lock_retry_timeout (fun _ => true)).2.2.1⟩

/-! ## Claim C3 -/

/-- Claim C3: whenever `WriteAtomic(path, data)` returns successfully, the
file at `path` holds exactly `data`, the temporary sibling `path+".tmp"` is
no longer present, and the parent directory has been created. -/
theorem C3_writeAtomic_ok (e : Env) (s : St) (path data : GoStr) (s' : St)
    (h : WriteAtomic e s path data = (s', ERes.ok ())) :
    lookupFs s'.fs path = some (FData.bytes data) ∧
    lookupFs s'.fs (path ++ tmpSuffix) = none ∧
    dirOf path ∈ s'.dirs := by
  cases hw : e s.tick with
  | ok =>
    cases hr : e (s.tick + 1) with
    | ok =>
      have hsrc : lookupFs (setFs s.fs (path ++ tmpSuffix) (FData.bytes data))
          (path ++ tmpSuffix) = some (FData.bytes data) := lookup_set_self _ _ _
      simp [WriteAtomic, EnsureDir, osMkdirAll, osWriteFile, osRename, hw, hr, hsrc] at h
      subst h
      refine ⟨lookup_set_self _ _ _, ?_, by simp⟩
      rw [lookup_set_other _ _ _ _ (append_tmp_ne path)]
      exact lookup_remove_self _ _
    | failNone =>
      simp [WriteAtomic, EnsureDir, osMkdirAll, osWriteFile, osRename, hw, hr] at h
    | failJunk j =>
      simp [WriteAtomic, EnsureDir, osMkdirAll, osWriteFile, osRename, hw, hr] at h
  | failNone =>
    simp [WriteAtomic, EnsureDir, osMkdirAll, osWriteFile, hw] at h
  | failJunk j =>
    simp [WriteAtomic, EnsureDir, osMkdirAll, osWriteFile, hw] at h

/-- Witness for C3: a concrete successful write. -/
theorem C3_writeAtomic_ok_witness :
    lookupFs (WriteAtomic envOK st0 (gs ("/d/t.json")) (gs ("new"))).1.fs
        (gs ("/d/t.json")) = some (FData.bytes (gs ("new"))) ∧
    lookupFs (WriteAtomic envOK st0 (gs ("/d/t.json")) (gs ("new"))).1.fs
        (gs ("/d/t.json") ++ tmpSuffix) = none ∧
    dirOf (gs ("/d/t.json")) ∈ (WriteAtomic envOK st0 (gs ("/d/t.json")) (gs ("new"))).1.dirs := by
  exact C3_writeAtomic_ok envOK st0 (gs ("/d/t.json")) (gs ("new"))
    (WriteAtomic envOK st0 (gs ("/d/t.json")) (gs ("new"))).1 (by decide)

/-! ## Claim C4 -/

/-- The starting state for the C4 scenarios: the target holds `"old"`. -/
def s4cex : St := ⟨[(gs ("/d/t.json"), FData.bytes (gs ("old")))], [], 0⟩

/-- An environment whose first write fails after creating the file with
partial content `"ju"`. -/
def envBad1 : Env := fun n => if n = 0 then OpRes.failJunk (gs ("ju")) else OpRes.ok

/-- An environment whose second fallible call (the rename) fails. -/
def envBad2 : Env := fun n => if n = 1 then OpRes.failNone else OpRes.ok

/-- Counterexample to C4 as stated: when the temporary-file write fails after
partially writing the file (as `os.WriteFile`, which creates/truncates and
then writes, can), `WriteAtomic` surfaces the error but does NOT remove the
temporary file — the partial `/d/t.json.tmp` remains; the target is
untouched. -/
theorem C4_tmp_left_counterexample :
    (WriteAtomic envBad1 s4cex (gs ("/d/t.json")) (gs ("new"))).2 =
      ERes.err Err.tmpWriteFail ∧
    lookupFs (WriteAtomic envBad1 s4cex (gs ("/d/t.json")) (gs ("new"))).1.fs
        (gs ("/d/t.json.tmp")) = some (FData.bytes (gs ("ju"))) ∧
    lookupFs (WriteAtomic envBad1 s4cex (gs ("/d/t.json")) (gs ("new"))).1.fs
        (gs ("/d/t.json")) = some (FData.bytes (gs ("old"))) := by
  decide

/-- Claim C4 (amended): when `WriteAtomic` fails, the failure is at the
temporary write or at the rename and the error is surfaced; the target path's
content (or absence) is unchanged in every failure case; after a rename
failure the temporary file has been removed — but after a temporary-write
failure no removal is attempted, so a partially written temporary file may
remain. -/
theorem C4_failure_behavior (e : Env) (s : St) (path data : GoStr) (s' : St) (er : Err)
    (h : WriteAtomic e s path data = (s', ERes.err er)) :
    (er = Err.tmpWriteFail ∨ er = Err.renameFail) ∧
    lookupFs s'.fs path = lookupFs s.fs path ∧
    (er = Err.renameFail → lookupFs s'.fs (path ++ tmpSuffix) = none) := by
  cases hw : e s.tick with
  | ok =>
    cases hr : e (s.tick + 1) with
    | ok =>
      have hsrc : lookupFs (setFs s.fs (path ++ tmpSuffix) (FData.bytes data))
          (path ++ tmpSuffix) = some (FData.bytes data) := lookup_set_self _ _ _
      simp [WriteAtomic, EnsureDir, osMkdirAll, osWriteFile, osRename, hw, hr, hsrc] at h
    | failNone =>
      simp [WriteAtomic, EnsureDir, osMkdirAll, osWriteFile, osRename, osRemove, hw, hr] at h
      obtain ⟨hst, her⟩ := h
      subst hst
      refine ⟨Or.inr her.symm, ?_, fun _ => lookup_remove_self _ _⟩
      rw [lookup_remove_other _ _ _ (append_tmp_ne' path)]
      exact lookup_set_other _ _ _ _ (append_tmp_ne' path)
    | failJunk j =>
      simp [WriteAtomic, EnsureDir, osMkdirAll, osWriteFile, osRename, osRemove, hw, hr] at h
      obtain ⟨hst, her⟩ := h
      subst hst
      refine ⟨Or.inr her.symm, ?_, fun _ => lookup_remove_self _ _⟩
      rw [lookup_remove_other _ _ _ (append_tmp_ne' path)]
      exact lookup_set_other _ _ _ _ (append_tmp_ne' path)
  | failNone =>
    simp [WriteAtomic, EnsureDir, osMkdirAll, osWriteFile, hw] at h
    obtain ⟨hst, her⟩ := h
    subst hst
    exact ⟨Or.inl her.symm, rfl, fun hx => absurd (her.trans hx) (by decide)⟩
  | failJunk j =>
    simp [WriteAtomic, EnsureDir, osMkdirAll, osWriteFile, hw] at h
    obtain ⟨hst, her⟩ := h
    subst hst
    refine ⟨Or.inl her.symm, ?_, fun hx => absurd (her.trans hx) (by decide)⟩
    exact lookup_set_other _ _ _ _ (append_tmp_ne' path)

/-- Witness for the amended C4: a concrete rename failure, with the target
untouched and the temporary file removed. -/
theorem C4_failure_behavior_witness :
    lookupFs (WriteAtomic envBad2 s4cex (gs ("/d/t.json")) (gs ("new"))).1.fs
        (gs ("/d/t.json")) = lookupFs s4cex.fs (gs ("/d/t.json")) ∧
    lookupFs (WriteAtomic envBad2 s4cex (gs ("/d/t.json")) (gs ("new"))).1.fs
        (gs ("/d/t.json") ++ tmpSuffix) = none := by
  have h := C4_failure_behavior envBad2 s4cex (gs ("/d/t.json")) (gs ("new"))
    (WriteAtomic envBad2 s4cex (gs ("/d/t.json")) (gs ("new"))).1 Err.renameFail (by decide)
  exact ⟨h.2.1, h.2.2 rfl⟩

/-! ## Claim C6 -/

/-- Claim C6: `CommitTransaction` and `RollbackTransaction` are the same
function at the storage layer: `RollbackTransaction` returns
`CommitTransaction` unchanged; both unconditionally delete the marker file,
succeed on every starting state — also when the marker is already absent, in
which case the state is untouched. -/
theorem C6_commit_rollback_eq (cfg : GoStr) (s : St) (key : GoStr) :
    RollbackTransaction cfg s key = CommitTransaction cfg s key ∧
    (CommitTransaction cfg s key).2 = ERes.ok () ∧
    lookupFs (CommitTransaction cfg s key).1.fs (markerPathOf cfg key) = none ∧
    (lookupFs s.fs (markerPathOf cfg key) = none → (CommitTransaction cfg s key).1 = s) := by
  refine ⟨rfl, rfl, lookup_remove_self _ _, ?_⟩
  intro h
  cases s with
  | mk fs dirs tick =>
    simp only [CommitTransaction, osRemove] at *
    rw [remove_absent _ _ h]

/-- Witness for C6 at a concrete state with no marker present. -/
theorem C6_commit_rollback_eq_witness :
    RollbackTransaction (gs ("/cfg")) st0 (gs ("K")) =
      CommitTransaction (gs ("/cfg")) st0 (gs ("K")) ∧
    (CommitTransaction (gs ("/cfg")) st0 (gs ("K"))).2 = ERes.ok () ∧
    (CommitTransaction (gs ("/cfg")) st0 (gs ("K"))).1 = st0 := by
  have h := C6_commit_rollback_eq (gs ("/cfg")) st0 (gs ("K"))
  exact ⟨h.1, h.2.1, h.2.2.2 (by decide)⟩

/-! ## Claim C5 -/

/-- A concrete resolved config directory. -/
def cfg0 : GoStr := gs ("/cfg")

/-- A concrete project key. -/
def keyK : GoStr := gs ("TEST-PROJ")

/-- Concrete transaction metadata. -/
def mdX : GoStr := gs ("issues/T-123.json")

/-- Claim C5 (code bug): `CheckPendingTransaction` after `BeginTransaction`
reports `exists = true` and absence as `(false, nil)` without error, but it
returns only the stored metadata: two transactions begun with different
operation names (`"create_issue"` vs `"delete_issue"`) and equal metadata
yield identical results, so the original operation name is not returned,
contrary to the claim, to the function's own doc comment, and to
`TestCheckPendingTransaction` in `storage_test.go`, which reads an
`Operation` field off the returned value. -/
theorem C5_operation_dropped :
    CheckPendingTransaction cfg0
        (BeginTransaction cfg0 envOK st0 keyK (gs ("create_issue")) mdX).1 keyK =
      ERes.ok (true, some mdX) ∧
    CheckPendingTransaction cfg0
        (BeginTransaction cfg0 envOK st0 keyK (gs ("delete_issue")) mdX).1 keyK =
      ERes.ok (true, some mdX) ∧
    ¬ gs ("create_issue") = gs ("delete_issue") ∧
    CheckPendingTransaction cfg0 st0 keyK = ERes.ok (false, none) := by
  decide

/-! ## Claim C10 -/

theorem lastProj_none_aux (cs : List GoStr) (h : lastProj cs = none) :
    ∀ (j : Nat) (v : GoStr), cs[j]? = some v → ¬ v = projectsComp := by
  induction cs with
  | nil => intro j v hj; simp at hj
  | cons c rest ih =>
    rw [lastProj] at h
    cases hr : lastProj rest with
    | some i0 => rw [hr] at h; simp at h
    | none =>
      rw [hr] at h
      intro j v hj
      cases j with
      | zero =>
        have hv : c = v := by simpa using hj
        subst hv
        intro hv2
        rw [if_pos hv2] at h
        simp at h
      | succ j0 =>
        exact ih hr j0 v (by simpa using hj)

theorem lastProj_some (cs : List GoStr) :
    ∀ i, lastProj cs = some i → i < cs.length ∧ cs[i]? = some projectsComp ∧
      ∀ j, i < j → ¬ cs[j]? = some projectsComp := by
  induction cs with
  | nil => intro i h; simp [lastProj] at h
  | cons c rest ih =>
    intro i h
    rw [lastProj] at h
    cases hr : lastProj rest with
    | some i0 =>
      rw [hr] at h
      obtain ⟨h1, h2, h3⟩ := ih i0 hr
      have hi : i = i0 + 1 := by simpa using h.symm
      subst hi
      refine ⟨by simpa using h1, by simpa using h2, ?_⟩
      intro j hj
      cases j with
      | zero => omega
      | succ j0 =>
        simpa using h3 j0 (by omega)
    | none =>
      rw [hr] at h
      by_cases hc : c = projectsComp
      · rw [if_pos hc] at h
        have hi : i = 0 := by simpa using h.symm
        subst hi
        refine ⟨by simp, by simpa using hc, ?_⟩
        intro j hj
        cases j with
        | zero => omega
        | succ j0 =>
          intro habs
          simp only [List.getElem?_cons_succ] at habs
          exact lastProj_none_aux rest hr j0 projectsComp habs rfl
      · rw [if_neg hc] at h
        simp at h

/-- Claim C10: `WriteJSONAtomic` accepts only target paths whose cleaned,
separator-split component list has a `"projects"` component preceded by at
least one component (`projectsIndex <= 0` is rejected) and followed by the
project-key component; the key is the segment right after the innermost
(last) `"projects"` component (no later component is `"projects"`); and for
every path whose extraction fails — e.g. the top-level `config.json` —
`WriteJSONAtomic` returns the error with the state completely unchanged:
no lock, no marker, no file was touched. -/
theorem C10_extract_key :
    (∀ path k, extractProjectKeyFromPath path = ERes.ok k →
      ∃ i, 0 < i ∧ i + 1 < (splitSlash (clean path)).length ∧
        (splitSlash (clean path))[i]? = some projectsComp ∧
        (splitSlash (clean path))[i+1]? = some k ∧
        ∀ j, i < j → ¬ (splitSlash (clean path))[j]? = some projectsComp) ∧
    (∀ path, (¬ ∃ i, 0 < i ∧ i + 1 < (splitSlash (clean path)).length ∧
        (splitSlash (clean path))[i]? = some projectsComp) →
      ∃ er, extractProjectKeyFromPath path = ERes.err er) ∧
    (∀ cfg e s path mres er, extractProjectKeyFromPath path = ERes.err er →
      WriteJSONAtomic cfg e s path mres = (s, ERes.err er)) := by
  have hok : ∀ path k, extractProjectKeyFromPath path = ERes.ok k →
      ∃ i, 0 < i ∧ i + 1 < (splitSlash (clean path)).length ∧
        (splitSlash (clean path))[i]? = some projectsComp ∧
        (splitSlash (clean path))[i+1]? = some k ∧
        ∀ j, i < j → ¬ (splitSlash (clean path))[j]? = some projectsComp := by
    intro path k h
    unfold extractProjectKeyFromPath at h
    cases hlp : lastProj (splitSlash (clean path)) with
    | none => rw [hlp] at h; simp at h
    | some i =>
      rw [hlp] at h
      dsimp only at h
      by_cases hcond : i = 0 ∨ (splitSlash (clean path)).length ≤ i + 1
      · rw [if_pos hcond] at h; simp at h
      · rw [if_neg hcond] at h
        push_neg at hcond
        obtain ⟨h1, h2, h3⟩ := lastProj_some _ i hlp
        have hk : (splitSlash (clean path)).getD (i+1) [] = k := by simpa using h
        refine ⟨i, by omega, by omega, h2, ?_, h3⟩
        rw [List.getD_eq_getElem?_getD] at hk
        cases hg : (splitSlash (clean path))[i+1]? with
        | none =>
          rw [List.getElem?_eq_none_iff] at hg
          omega
        | some v =>
          rw [hg] at hk
          simpa using congrArg some hk
  refine ⟨hok, ?_, ?_⟩
  · intro path hshape
    cases hx : extractProjectKeyFromPath path with
    | ok k =>
      obtain ⟨i, hi1, hi2, hi3, -⟩ := hok path k hx
      exact absurd ⟨i, hi1, hi2, hi3⟩ hshape
    | err er => exact ⟨er, rfl⟩
  · intro cfg e s path mres er hx
    simp [WriteJSONAtomic, hx]

/-- Witness for C10: the top-level `config.json` path is rejected before any
lock, marker or file activity. -/
theorem C10_extract_key_witness :
    WriteJSONAtomic cfg0 envOK st0 (gs ("/cfg/config.json")) (some (gs ("d"))) =
      (st0, ERes.err Err.extractBad) :=
  (C10_extract_key).2.2 cfg0 envOK st0 (gs ("/cfg/config.json")) (some (gs ("d")))
    Err.extractBad (by decide)

/-! ## Claim C2 -/

/-- Starting state for the C2 counterexample: the target path is the
project's own transaction-marker file, holding prior content `"old"`. -/
def s2cex : St :=
  ⟨[(gs ("/cfg/projects/K/.buyruk_pending"), FData.bytes (gs ("old")))], [], 0⟩

/-- Counterexample to C2 as stated: for the target path
`<cfg>/projects/K/.buyruk_pending` (a path `WriteJSONAtomic` accepts — the
project key extracts as `K`), a marshalling failure makes the call return an
error after `BeginTransaction` has run, yet the target's prior content is
gone: `BeginTransaction` renamed the new marker onto it and the rollback then
deleted it. -/
theorem C2_marker_target_counterexample :
    (WriteJSONAtomic cfg0 envOK s2cex (gs ("/cfg/projects/K/.buyruk_pending")) none).2 =
      ERes.err Err.marshalFail ∧
    lookupFs s2cex.fs (gs ("/cfg/projects/K/.buyruk_pending")) =
      some (FData.bytes (gs ("old"))) ∧
    lookupFs (WriteJSONAtomic cfg0 envOK s2cex
        (gs ("/cfg/projects/K/.buyruk_pending")) none).1.fs
      (gs ("/cfg/projects/K/.buyruk_pending")) = none := by
  decide

theorem extract_err_kind (path : GoStr) (e0 : Err)
    (h : extractProjectKeyFromPath path = ERes.err e0) : e0 = Err.extractBad := by
  unfold extractProjectKeyFromPath at h
  cases hlp : lastProj (splitSlash (clean path)) with
  | none =>
    rw [hlp] at h
    dsimp only at h
    injection h with h2
    exact h2.symm
  | some i =>
    rw [hlp] at h
    dsimp only at h
    split at h
    · injection h with h2
      exact h2.symm
    · exact absurd h (by simp)

theorem lookup_rr_first (F : List (GoStr × FData)) (p q : GoStr) :
    lookupFs (removeFs (removeFs F p) q) p = none := by
  by_cases h : p = q
  · subst h; exact lookup_remove_self _ _
  · rw [lookup_remove_other _ q p h]
    exact lookup_remove_self _ _

theorem lookup_chain (fsOrig : List (GoStr × FData)) (lockP mtmp marker path : GoStr)
    (pid tx1 tx2 : FData) (hm : ¬ path = marker) (ht : ¬ path = mtmp)
    (hl : ¬ path = lockP) :
    lookupFs (setFs (removeFs (setFs (setFs fsOrig lockP pid) mtmp tx1) mtmp) marker tx2)
        path = lookupFs fsOrig path := by
  rw [lookup_set_other _ _ _ _ hm, lookup_remove_other _ _ _ ht,
    lookup_set_other _ _ _ _ ht, lookup_set_other _ _ _ _ hl]

/-- Claim C2 (amended): whenever `WriteJSONAtomic` returns an error after its
begin-transaction step has run (a marshal, temporary-write or rename
failure), the transaction marker has been removed and the lock released; the
target's prior content (or absence) is unchanged provided the target is not
the project's transaction-marker file or that marker's `.tmp` sibling — for
those two bookkeeping paths the marker protocol itself rewrites and removes
the target, as the counterexample shows. -/
theorem C2_cleanup_on_failure (cfg : GoStr) (e : Env) (s : St) (path : GoStr)
    (mres : Option GoStr) (s' : St) (er : Err)
    (h : WriteJSONAtomic cfg e s path mres = (s', ERes.err er))
    (her : er = Err.marshalFail ∨ er = Err.tmpWriteFail ∨ er = Err.renameFail) :
    ∃ k, extractProjectKeyFromPath path = ERes.ok k ∧
      lookupFs s'.fs (markerPathOf cfg k) = none ∧
      lookupFs s'.fs (lockPathOf cfg k) = none ∧
      (¬ path = markerPathOf cfg k → ¬ path = markerPathOf cfg k ++ tmpSuffix →
        lookupFs s'.fs path = lookupFs s.fs path) := by
  cases hex : extractProjectKeyFromPath path with
  | err e0 =>
    have hk := extract_err_kind path e0 hex
    subst hk
    rcases her with h1 | h1 | h1 <;> subst h1 <;> simp [WriteJSONAtomic, hex] at h
  | ok k =>
    refine ⟨k, rfl, ?_⟩
    unfold WriteJSONAtomic at h
    rw [hex] at h
    dsimp only at h
    by_cases hstat : osStat s (lockPathOf cfg k)
    · rcases her with h1 | h1 | h1 <;> subst h1 <;>
        simp [AcquireLockSeq, hstat] at h
    · have hlock : lookupFs s.fs (lockPathOf cfg k) = none := by
        cases hcase : lookupFs s.fs (lockPathOf cfg k) with
        | none => rfl
        | some v => simp [osStat, hcase] at hstat
      cases hw0 : e s.tick with
      | failNone =>
        rcases her with h1 | h1 | h1 <;> subst h1 <;>
          simp [AcquireLockSeq, hstat, osWriteFile, hw0] at h
      | failJunk j0 =>
        rcases her with h1 | h1 | h1 <;> subst h1 <;>
          simp [AcquireLockSeq, hstat, osWriteFile, hw0] at h
      | ok =>
        simp [AcquireLockSeq, hstat, osWriteFile, hw0] at h
        cases hw1 : e (s.tick + 1) with
        | failNone =>
          rcases her with h1 | h1 | h1 <;> subst h1 <;>
            simp [BeginTransaction, osMkdirAll, osWriteFile, hw1] at h
        | failJunk j1 =>
          rcases her with h1 | h1 | h1 <;> subst h1 <;>
            simp [BeginTransaction, osMkdirAll, osWriteFile, hw1] at h
        | ok =>
          cases hw2 : e (s.tick + 2) with
          | failNone =>
            rcases her with h1 | h1 | h1 <;> subst h1 <;>
              simp [BeginTransaction, osMkdirAll, osWriteFile, osRename, hw1, hw2] at h
          | failJunk j2 =>
            rcases her with h1 | h1 | h1 <;> subst h1 <;>
              simp [BeginTransaction, osMkdirAll, osWriteFile, osRename, hw1, hw2] at h
          | ok =>
            simp [BeginTransaction, osMkdirAll, osWriteFile, osRename, hw1, hw2,
              lookup_set_self] at h
            cases mres with
            | none =>
              simp [RollbackTransaction, CommitTransaction, osRemove] at h
              obtain ⟨hst, her2⟩ := h
              subst hst
              refine ⟨lookup_rr_first _ _ _, lookup_remove_self _ _, ?_⟩
              intro hm ht
              by_cases hl : path = lockPathOf cfg k
              · rw [hl, lookup_remove_self]
                exact hlock.symm
              · rw [lookup_remove_other _ _ _ hl, lookup_remove_other _ _ _ hm]
                exact lookup_chain _ _ _ _ _ _ _ _ hm ht hl
            | some data =>
              cases hw3 : e (s.tick + 3) with
              | failNone =>
                simp [WriteAtomic, EnsureDir, osMkdirAll, osWriteFile, hw3,
                  RollbackTransaction, CommitTransaction, osRemove] at h
                obtain ⟨hst, her2⟩ := h
                subst hst
                refine ⟨lookup_rr_first _ _ _, lookup_remove_self _ _, ?_⟩
                intro hm ht
                by_cases hl : path = lockPathOf cfg k
                · rw [hl, lookup_remove_self]
                  exact hlock.symm
                · rw [lookup_remove_other _ _ _ hl, lookup_remove_other _ _ _ hm]
                  exact lookup_chain _ _ _ _ _ _ _ _ hm ht hl
              | failJunk j3 =>
                simp [WriteAtomic, EnsureDir, osMkdirAll, osWriteFile, hw3,
                  RollbackTransaction, CommitTransaction, osRemove] at h
                obtain ⟨hst, her2⟩ := h
                subst hst
                refine ⟨lookup_rr_first _ _ _, lookup_remove_self _ _, ?_⟩
                intro hm ht
                by_cases hl : path = lockPathOf cfg k
                · rw [hl, lookup_remove_self]
                  exact hlock.symm
                · rw [lookup_remove_other _ _ _ hl, lookup_remove_other _ _ _ hm,
                    lookup_set_other _ _ _ _ (append_tmp_ne' path)]
                  exact lookup_chain _ _ _ _ _ _ _ _ hm ht hl
              | ok =>
                cases hw4 : e (s.tick + 4) with
                | ok =>
                  rcases her with h1 | h1 | h1 <;> subst h1 <;>
                    simp [WriteAtomic, EnsureDir, osMkdirAll, osWriteFile, osRename,
                      hw3, hw4, lookup_set_self, CommitTransaction, osRemove] at h
                | failNone =>
                  simp [WriteAtomic, EnsureDir, osMkdirAll, osWriteFile, osRename,
                    hw3, hw4, lookup_set_self, RollbackTransaction,
                    CommitTransaction, osRemove] at h
                  obtain ⟨hst, her2⟩ := h
                  subst hst
                  refine ⟨lookup_rr_first _ _ _, lookup_remove_self _ _, ?_⟩
                  intro hm ht
                  by_cases hl : path = lockPathOf cfg k
                  · rw [hl, lookup_remove_self]
                    exact hlock.symm
                  · rw [lookup_remove_other _ _ _ hl, lookup_remove_other _ _ _ hm,
                      lookup_remove_other _ _ _ (append_tmp_ne' path),
                      lookup_set_other _ _ _ _ (append_tmp_ne' path)]
                    exact lookup_chain _ _ _ _ _ _ _ _ hm ht hl
                | failJunk j4 =>
                  simp [WriteAtomic, EnsureDir, osMkdirAll, osWriteFile, osRename,
                    hw3, hw4, lookup_set_self, RollbackTransaction,
                    CommitTransaction, osRemove] at h
                  obtain ⟨hst, her2⟩ := h
                  subst hst
                  refine ⟨lookup_rr_first _ _ _, lookup_remove_self _ _, ?_⟩
                  intro hm ht
                  by_cases hl : path = lockPathOf cfg k
                  · rw [hl, lookup_remove_self]
                    exact hlock.symm
                  · rw [lookup_remove_other _ _ _ hl, lookup_remove_other _ _ _ hm,
                      lookup_remove_other _ _ _ (append_tmp_ne' path),
                      lookup_set_other _ _ _ _ (append_tmp_ne' path)]
                    exact lookup_chain _ _ _ _ _ _ _ _ hm ht hl

/-- Witness for the amended C2: a concrete marshal failure cleans up marker
and lock and leaves the (distinct) target untouched. -/
theorem C2_cleanup_on_failure_witness :
    lookupFs (WriteJSONAtomic cfg0 envOK st0 (gs ("/cfg/projects/K/project.json")) none).1.fs
        (markerPathOf cfg0 (gs ("K"))) = none ∧
    lookupFs (WriteJSONAtomic cfg0 envOK st0 (gs ("/cfg/projects/K/project.json")) none).1.fs
        (lockPathOf cfg0 (gs ("K"))) = none ∧
    lookupFs (WriteJSONAtomic cfg0 envOK st0 (gs ("/cfg/projects/K/project.json")) none).1.fs
        (gs ("/cfg/projects/K/project.json")) =
      lookupFs st0.fs (gs ("/cfg/projects/K/project.json")) := by
  obtain ⟨k, hk, h1, h2, h3⟩ := C2_cleanup_on_failure cfg0 envOK st0
    (gs ("/cfg/projects/K/project.json")) none
    (WriteJSONAtomic cfg0 envOK st0 (gs ("/cfg/projects/K/project.json")) none).1
    Err.marshalFail (by decide) (Or.inl rfl)
  have hkK : gs ("K") = k := by
    have h0 : extractProjectKeyFromPath (gs ("/cfg/projects/K/project.json")) =
        ERes.ok (gs ("K")) := by decide
    rw [h0] at hk
    injection hk with hx
  subst hkK
  exact ⟨h1, h2, h3 (by decide) (by decide)⟩

/-! ## Claims C7 and C8: structural lemmas about the path model -/

/-- A well-formed path component: nonempty, not `"."` or `".."`, slash-free. -/
def WfComp (c : GoStr) : Prop :=
  ¬ c = [] ∧ ¬ c = dotC ∧ ¬ c = dotdotC ∧ ∀ x ∈ c, ¬ x = '/'

/-- All components well formed (the shape of a cleaned absolute path). -/
def AbsWfComps (cs : List GoStr) : Prop := ∀ c ∈ cs, WfComp c

/-- A path that is some cleaned absolute path. -/
def CleanAbs (p : GoStr) : Prop := ∃ cs, AbsWfComps cs ∧ p = renderA true cs

theorem splitSlash_ne_nil (p : GoStr) : ¬ splitSlash p = [] := by
  cases p with
  | nil => simp [splitSlash]
  | cons c rest =>
    rw [splitSlash]
    by_cases hc : c = '/'
    · simp [hc]
    · rw [if_neg hc]
      cases hr : splitSlash rest with
      | nil => simp
      | cons g gs2 => simp

theorem mem_splitSlash_noslash (p : GoStr) :
    ∀ c ∈ splitSlash p, ∀ x ∈ c, ¬ x = '/' := by
  induction p with
  | nil =>
    intro c hc x hx
    simp [splitSlash] at hc
    subst hc
    simp at hx
  | cons c0 rest ih =>
    intro c hc x hx
    rw [splitSlash] at hc
    by_cases h0 : c0 = '/'
    · rw [if_pos h0] at hc
      cases hc with
      | head => simp at hx
      | tail _ hmem => exact ih c hmem x hx
    · rw [if_neg h0] at hc
      cases hr : splitSlash rest with
      | nil => exact absurd hr (splitSlash_ne_nil rest)
      | cons g gs2 =>
        rw [hr] at hc
        cases hc with
        | head =>
          cases hx with
          | head => exact h0
          | tail _ hx2 => exact ih g (hr ▸ List.mem_cons_self g gs2) x hx2
        | tail _ hmem => exact ih c (hr ▸ List.mem_cons_of_mem g hmem) x hx

theorem splitSlash_append (a b : GoStr) :
    splitSlash (a ++ '/' :: b) = splitSlash a ++ splitSlash b := by
  induction a with
  | nil => simp [splitSlash]
  | cons c rest ih =>
    by_cases hc : c = '/'
    · simp only [List.cons_append, splitSlash, if_pos hc, List.append_eq, ih,
        List.nil_append]
    · simp only [List.cons_append, splitSlash, if_neg hc, List.append_eq, ih]
      cases hr : splitSlash rest with
      | nil => exact absurd hr (splitSlash_ne_nil rest)
      | cons g gs2 => simp [hr]

theorem splitSlash_noslash (y : GoStr) (hy : ∀ x ∈ y, ¬ x = '/') :
    splitSlash y = [ y ] := by
  induction y with
  | nil => rfl
  | cons c rest ih =>
    have hc : ¬ c = '/' := hy c (by simp)
    rw [splitSlash, if_neg hc, ih (fun x hx => hy x (by simp [hx]))]

theorem intercSlash_append (as bs : List GoStr) (ha : ¬ as = []) (hb : ¬ bs = []) :
    intercSlash (as ++ bs) = intercSlash as ++ '/' :: intercSlash bs := by
  induction as with
  | nil => exact absurd rfl ha
  | cons a as' ih =>
    cases as' with
    | nil =>
      cases bs with
      | nil => exact absurd rfl hb
      | cons b bs' => simp [intercSlash]
    | cons a2 as2 =>
      have h2 := ih (by simp)
      calc intercSlash ((a :: a2 :: as2) ++ bs)
          = a ++ '/' :: intercSlash ((a2 :: as2) ++ bs) := by
            simp [intercSlash]
        _ = a ++ '/' :: (intercSlash (a2 :: as2) ++ '/' :: intercSlash bs) := by rw [h2]
        _ = intercSlash (a :: a2 :: as2) ++ '/' :: intercSlash bs := by
            simp [intercSlash]

theorem splitSlash_interc (cs : List GoStr) (hne : ¬ cs = [])
    (hwf : ∀ c ∈ cs, ¬ c = [] ∧ ∀ x ∈ c, ¬ x = '/') :
    splitSlash (intercSlash cs) = cs := by
  induction cs with
  | nil => exact absurd rfl hne
  | cons c rest ih =>
    cases rest with
    | nil => exact splitSlash_noslash c (hwf c (by simp)).2
    | cons c2 rest2 =>
      have hstep : intercSlash (c :: c2 :: rest2) = c ++ '/' :: intercSlash (c2 :: rest2) := by
        simp [intercSlash]
      rw [hstep, splitSlash_append, splitSlash_noslash c (hwf c (by simp)).2,
        ih (by simp) (fun d hd => hwf d (by simp [hd]))]
      simp

theorem cleanStep_skip (abs : Bool) (stk : List GoStr) (c : GoStr)
    (h : c = [] ∨ c = dotC) : cleanStep abs stk c = stk := by
  simp [cleanStep, h]

theorem cleanStep_push (abs : Bool) (stk : List GoStr) (c : GoStr)
    (h1 : ¬ c = []) (h2 : ¬ c = dotC) (h3 : ¬ c = dotdotC) :
    cleanStep abs stk c = c :: stk := by
  unfold cleanStep
  rw [if_neg (by simp [h1, h2]), if_neg h3]

theorem fold_push_all (cs : List GoStr)
    (h : ∀ c ∈ cs, ¬ c = [] ∧ ¬ c = dotC ∧ ¬ c = dotdotC) :
    ∀ stk, List.foldl (cleanStep true) stk cs = cs.reverse ++ stk := by
  induction cs with
  | nil => intro stk; rfl
  | cons c rest ih =>
    intro stk
    obtain ⟨h1, h2, h3⟩ := h c (by simp)
    rw [List.foldl_cons, cleanStep_push true stk c h1 h2 h3,
      ih (fun d hd => h d (by simp [hd])) (c :: stk)]
    simp

theorem cleanStep_wf (stk : List GoStr) (c : GoStr)
    (hs : ∀ d ∈ stk, WfComp d) (hc : ∀ x ∈ c, ¬ x = '/') :
    ∀ d ∈ cleanStep true stk c, WfComp d := by
  by_cases h1 : c = [] ∨ c = dotC
  · rw [cleanStep_skip true stk c h1]; exact hs
  · by_cases h2 : c = dotdotC
    · unfold cleanStep
      rw [if_neg h1, if_pos h2]
      cases stk with
      | nil => intro d hd; simp at hd
      | cons t rest =>
        dsimp only
        rw [if_neg (hs t (by simp)).2.2.1]
        intro d hd
        exact hs d (by simp [hd])
    · unfold cleanStep
      rw [if_neg h1, if_neg h2]
      intro d hd
      cases hd with
      | head =>
        push_neg at h1
        exact ⟨h1.1, h1.2, h2, hc⟩
      | tail _ hd2 => exact hs d hd2

theorem foldl_wf (raw : List GoStr) :
    ∀ stk, (∀ d ∈ stk, WfComp d) → (∀ c ∈ raw, ∀ x ∈ c, ¬ x = '/') →
      ∀ d ∈ List.foldl (cleanStep true) stk raw, WfComp d := by
  induction raw with
  | nil => intro stk hs _ d hd; exact hs d hd
  | cons c rest ih =>
    intro stk hs hr d hd
    rw [List.foldl_cons] at hd
    exact ih (cleanStep true stk c)
      (cleanStep_wf stk c hs (hr c (by simp)))
      (fun c2 hc2 => hr c2 (by simp [hc2])) d hd

theorem stripCommon_nil_left :
    ∀ (as bs lt : List GoStr), stripCommon as bs = ([], lt) → bs = as ++ lt := by
  intro as
  induction as with
  | nil =>
    intro bs lt h
    cases bs with
    | nil => simp [stripCommon] at h; simp [h]
    | cons b bs2 => simp [stripCommon] at h; simp [h]
  | cons a as2 ih =>
    intro bs lt h
    cases bs with
    | nil => simp [stripCommon] at h
    | cons b bs2 =>
      rw [stripCommon] at h
      by_cases hab : a = b
      · rw [if_pos hab] at h
        rw [← hab, ih bs2 lt h]
        simp
      · rw [if_neg hab] at h
        simp at h

theorem json_noslash : ∀ x ∈ gs (".json"), ¬ x = '/' := by decide

theorem append_json_last (L0 : GoStr) :
    (L0 ++ gs (".json")).getLast? = some 'n' := by
  rw [List.getLast?_append_of_ne_nil L0 (by decide)]
  decide

theorem append_json_ne (L0 : GoStr) :
    ¬ L0 ++ gs (".json") = [] ∧ ¬ L0 ++ gs (".json") = dotC ∧
    ¬ L0 ++ gs (".json") = dotdotC := by
  refine ⟨?_, ?_, ?_⟩ <;> intro h <;>
    have h2 := (append_json_last L0).symm.trans (congrArg List.getLast? h) <;>
    exact absurd h2 (by decide)

theorem splitSlash_append_noslash (z y : GoStr) (hy : ∀ x ∈ y, ¬ x = '/') :
    splitSlash (z ++ y) =
      (splitSlash z).dropLast ++ [ (splitSlash z).getLastD [] ++ y ] := by
  induction z with
  | nil => simp [splitSlash, splitSlash_noslash y hy]
  | cons c rest ih =>
    by_cases hc : c = '/'
    · have hL : splitSlash ((c :: rest) ++ y) = [] :: splitSlash (rest ++ y) := by
        rw [List.cons_append, splitSlash, if_pos hc]
      have hR : splitSlash (c :: rest) = [] :: splitSlash rest := by
        rw [splitSlash, if_pos hc]
      rw [hL, hR, ih]
      cases hr : splitSlash rest with
      | nil => exact absurd hr (splitSlash_ne_nil rest)
      | cons g gs2 => simp
    · cases hr2 : splitSlash rest with
      | nil => exact absurd hr2 (splitSlash_ne_nil rest)
      | cons g gs2 =>
        have hry : splitSlash (rest ++ y) =
            (g :: gs2).dropLast ++ [ (g :: gs2).getLastD [] ++ y ] := by
          rw [ih, hr2]
        have hL : splitSlash ((c :: rest) ++ y) =
            (match splitSlash (rest ++ y) with
              | [] => [[ c ]]
              | g3 :: gs3 => (c :: g3) :: gs3) := by
          rw [List.cons_append, splitSlash, if_neg hc]
        have hRc : splitSlash (c :: rest) = (c :: g) :: gs2 := by
          rw [splitSlash, if_neg hc, hr2]
        rw [hL, hry, hRc]
        cases gs2 with
        | nil => simp
        | cons g2 gs3 => simp

theorem renderA_ne_nil (cs : List GoStr) : ¬ renderA true cs = [] := by
  rw [renderA, if_pos rfl]
  simp

theorem renderA_ne_dot (cs : List GoStr) : ¬ renderA true cs = dotC := by
  rw [renderA, if_pos rfl]
  simp [dotC]

theorem isAbs_renderA (cs : List GoStr) : isAbs (renderA true cs) = true := by
  rw [renderA, if_pos rfl, isAbs]
  simp

theorem splitSlash_renderA (cs : List GoStr) (hwf : AbsWfComps cs) (hne : ¬ cs = []) :
    splitSlash (renderA true cs) = [] :: cs := by
  rw [renderA, if_pos rfl, splitSlash, if_pos rfl,
    splitSlash_interc cs hne (fun c hc => ⟨(hwf c hc).1, (hwf c hc).2.2.2⟩)]

theorem renderA_inj_wf (as bs : List GoStr) (ha : AbsWfComps as) (hb : AbsWfComps bs)
    (hane : ¬ as = []) (hbne : ¬ bs = [])
    (h : renderA true as = renderA true bs) : as = bs := by
  have h2 := congrArg splitSlash h
  rw [splitSlash_renderA as ha hane, splitSlash_renderA bs hb hbne] at h2
  exact List.tail_eq_of_cons_eq h2

theorem filter_nonempty_id (cs : List GoStr) (h : ∀ c ∈ cs, ¬ c = []) :
    cs.filter (fun c => ¬ c = []) = cs := by
  induction cs with
  | nil => rfl
  | cons c rest ih =>
    rw [List.filter_cons, if_pos (by simpa using h c (by simp)),
      ih (fun d hd => h d (by simp [hd]))]

theorem compsOfClean_renderA (cs : List GoStr) (hwf : AbsWfComps cs) :
    compsOfClean (renderA true cs) = cs := by
  by_cases hne : cs = []
  · subst hne; decide
  · rw [compsOfClean, if_neg (renderA_ne_dot cs), splitSlash_renderA cs hwf hne,
      List.filter_cons]
    rw [if_neg (by simp)]
    exact filter_nonempty_id cs (fun c hc => (hwf c hc).1)

theorem joinl_base (cs_b : List GoStr) (x : GoStr) (hwf : AbsWfComps cs_b)
    (hx : ¬ x = []) :
    joinl [renderA true cs_b, x] =
      renderA true ((List.foldl (cleanStep true) cs_b.reverse (splitSlash x)).reverse) := by
  have hbne : ¬ renderA true cs_b = [] := renderA_ne_nil cs_b
  have hjoin : joinl [renderA true cs_b, x] = clean (renderA true cs_b ++ '/' :: x) := by
    have hnz : ([renderA true cs_b, x].filter (fun v => ¬ v = [])) =
        [renderA true cs_b, x] := by
      refine filter_nonempty_id _ ?_
      intro c hc
      simp only [List.mem_cons, List.not_mem_nil, or_false] at hc
      rcases hc with hc | hc
      · subst hc; exact hbne
      · subst hc; exact hx
    have hi : intercSlash [renderA true cs_b, x] = renderA true cs_b ++ '/' :: x := by
      simp [intercSlash]
    rw [joinl, hnz, if_neg (by simp), hi]
  have habs : isAbs (renderA true cs_b ++ '/' :: x) = true := by
    rw [renderA, if_pos rfl]
    simp [isAbs]
  rw [hjoin, clean, habs, splitSlash_append]
  by_cases hcs : cs_b = []
  · subst hcs
    have hsp : splitSlash (renderA true ([] : List GoStr)) = [[], []] := by decide
    rw [hsp, cleanC]
    rw [show (([[], []] : List GoStr) ++ splitSlash x) = [] :: [] :: splitSlash x by simp]
    rw [List.foldl_cons, cleanStep_skip true [] [] (Or.inl rfl),
      List.foldl_cons, cleanStep_skip true [] [] (Or.inl rfl)]
    simp
  · rw [splitSlash_renderA cs_b hwf hcs, cleanC]
    rw [show (([] :: cs_b) ++ splitSlash x) = [] :: (cs_b ++ splitSlash x) by simp]
    rw [List.foldl_cons, cleanStep_skip true [] [] (Or.inl rfl), List.foldl_append,
      fold_push_all cs_b (fun c hc => ⟨(hwf c hc).1, (hwf c hc).2.1, (hwf c hc).2.2.1⟩) []]
    simp

theorem startsDotDot_render (rest : List GoStr) :
    startsDotDot (renderA false (dotdotC :: rest)) = true := by
  rw [renderA, if_neg (by simp), if_neg (by simp)]
  cases rest with
  | nil => rfl
  | cons r rs => rfl

/-- The central traversal-safety fact: when the collection directory is a
cleaned absolute path whose final component does not end in `'n'` (as
`"issues"` and `"epics"` do not), every identifier that `recordPath` accepts
resolves to a path strictly inside the collection directory: the result is
the collection directory, a separator, and a nonempty relative remainder
free of `".."` components. -/
theorem recordPath_inside (cs0 : List GoStr) (w id p : GoStr)
    (h0 : AbsWfComps cs0) (hw : WfComp w) (hwn : ¬ w.getLast? = some 'n')
    (h : recordPath (renderA true (cs0 ++ [w])) id = ERes.ok p) :
    ∃ tail, ¬ tail = [] ∧ AbsWfComps tail ∧
      p = renderA true (cs0 ++ [w]) ++ '/' :: intercSlash tail := by
  set cs_b := cs0 ++ [w] with hcsb
  have hb : AbsWfComps cs_b := by
    intro c hc
    rw [hcsb] at hc
    rcases List.mem_append.mp hc with hc | hc
    · exact h0 c hc
    · simp at hc; subst hc; exact hw
  have hbne : ¬ cs_b = [] := by simp [hcsb]
  have hblast : cs_b.getLast? = some w := by
    rw [hcsb, List.getLast?_append_of_ne_nil cs0 (by simp)]
    rfl
  unfold recordPath at h
  by_cases hid : ¬ clean id = id ∨ isAbs (clean id) = true
  · rw [if_pos hid] at h
    exact absurd h (by simp)
  · rw [if_neg hid] at h
    push_neg at hid
    obtain ⟨hcid, -⟩ := hid
    rw [hcid] at h
    have hxne : ¬ id ++ gs (".json") = [] := (append_json_ne id).1
    rw [joinl_base cs_b (id ++ gs (".json")) hb hxne] at h
    set T := (List.foldl (cleanStep true) cs_b.reverse
      (splitSlash (id ++ gs (".json")))).reverse with hT
    have hsplit_idext : splitSlash (id ++ gs (".json")) =
        (splitSlash id).dropLast ++ [ (splitSlash id).getLastD [] ++ gs (".json") ] :=
      splitSlash_append_noslash id _ json_noslash
    have hLwf := append_json_ne ((splitSlash id).getLastD [])
    have hTlast : T.getLast? = some ((splitSlash id).getLastD [] ++ gs (".json")) := by
      rw [hT, hsplit_idext, List.foldl_append, List.foldl_cons, List.foldl_nil,
        cleanStep_push true _ _ hLwf.1 hLwf.2.1 hLwf.2.2]
      simp
    have hTne : ¬ T = [] := by
      intro hTnil
      rw [hTnil] at hTlast
      simp at hTlast
    have hTwf : AbsWfComps T := by
      intro d hd
      rw [hT, List.mem_reverse] at hd
      exact foldl_wf (splitSlash (id ++ gs (".json"))) cs_b.reverse
        (fun d2 hd2 => hb d2 (List.mem_reverse.mp hd2))
        (fun c hc => mem_splitSlash_noslash _ c hc) d hd
    have hTneq : ¬ T = cs_b := by
      intro heq
      rw [heq, hblast] at hTlast
      apply hwn
      rw [show w.getLast? = ((splitSlash id).getLastD [] ++ gs (".json")).getLast? by
        rw [show w = (splitSlash id).getLastD [] ++ gs (".json") by injection hTlast]]
      exact append_json_last _
    have hbf : ¬ renderA true cs_b = renderA true T := by
      intro heq
      exact hTneq (renderA_inj_wf cs_b T hb hTwf hbne hTne heq).symm
    rw [relStr, if_neg hbf, if_neg (by rw [isAbs_renderA, isAbs_renderA]; simp),
      compsOfClean_renderA cs_b hb, compsOfClean_renderA T hTwf] at h
    cases hsc : stripCommon cs_b T with
    | mk lb lt =>
      rw [hsc] at h
      dsimp only at h
      cases lb with
      | nil =>
        rw [if_neg (by simp)] at h
        simp only [List.length_nil, List.replicate_zero, List.nil_append] at h
        have hTeq : T = cs_b ++ lt := stripCommon_nil_left cs_b T lt hsc
        have hltne : ¬ lt = [] := by
          intro h0x
          subst h0x
          rw [List.append_nil] at hTeq
          exact hTneq hTeq
        by_cases hsd : startsDotDot (renderA false lt) = true
        · rw [if_pos hsd] at h
          exact absurd h (by simp)
        · rw [if_neg hsd] at h
          injection h with h2
          refine ⟨lt, hltne, ?_, ?_⟩
          · intro d hd
            exact hTwf d (by rw [hTeq]; exact List.mem_append_right cs_b hd)
          · rw [← h2, hTeq, renderA, if_pos rfl, renderA, if_pos rfl,
              intercSlash_append cs_b lt hbne hltne]
            simp
      | cons b0 lb2 =>
        by_cases hany : (b0 :: lb2).any (fun c => c = dotdotC) = true
        · rw [if_pos hany] at h
          exact absurd h (by simp)
        · rw [if_neg hany] at h
          dsimp only at h
          rw [if_pos (by
            rw [List.length_cons, List.replicate_succ, List.cons_append]
            exact startsDotDot_render _)] at h
          exact absurd h (by simp)

theorem cleanAbs_clean (z : GoStr) (hz : isAbs z = true) : CleanAbs (clean z) := by
  refine ⟨cleanC true (splitSlash z), ?_, ?_⟩
  · intro d hd
    rw [cleanC, List.mem_reverse] at hd
    exact foldl_wf (splitSlash z) [] (by simp)
      (fun c hc => mem_splitSlash_noslash z c hc) d hd
  · rw [clean, hz]

theorem joinl_cleanAbs (cfg : GoStr) (rest : List GoStr) (hcfg : isAbs cfg = true) :
    CleanAbs (joinl (cfg :: rest)) := by
  have hcfgne : ¬ cfg = [] := by
    cases cfg with
    | nil => simp [isAbs] at hcfg
    | cons c cr => simp
  have hfrw : (cfg :: rest).filter (fun v => ¬ v = []) =
      cfg :: rest.filter (fun v => ¬ v = []) := by
    rw [List.filter_cons, if_pos (by simpa using hcfgne)]
  rw [joinl, hfrw, if_neg (by simp)]
  apply cleanAbs_clean
  cases hf : rest.filter (fun v => ¬ v = []) with
  | nil => simpa [intercSlash] using hcfg
  | cons r rs =>
    have hi : intercSlash (cfg :: r :: rs) = cfg ++ '/' :: intercSlash (r :: rs) := by
      simp [intercSlash]
    rw [hi]
    cases cfg with
    | nil => exact absurd rfl hcfgne
    | cons ch cr => simpa [isAbs] using hcfg

theorem joinl_push (cs : List GoStr) (w : GoStr) (hcs : AbsWfComps cs)
    (hw1 : ¬ w = []) (hw2 : ¬ w = dotC) (hw3 : ¬ w = dotdotC)
    (hw4 : ∀ x ∈ w, ¬ x = '/') :
    joinl [renderA true cs, w] = renderA true (cs ++ [w]) := by
  rw [joinl_base cs w hcs hw1, splitSlash_noslash w hw4, List.foldl_cons,
    List.foldl_nil, cleanStep_push true _ w hw1 hw2 hw3]
  simp

theorem collPath_inside (cfg key w id p : GoStr) (hcfg : isAbs cfg = true)
    (hw1 : ¬ w = []) (hw2 : ¬ w = dotC) (hw3 : ¬ w = dotdotC)
    (hw4 : ∀ x ∈ w, ¬ x = '/') (hwn : ¬ w.getLast? = some 'n')
    (h : recordPath (joinl [ProjectDirS cfg key, w]) id = ERes.ok p) :
    ∃ tail, ¬ tail = [] ∧ AbsWfComps tail ∧
      p = joinl [ProjectDirS cfg key, w] ++ '/' :: intercSlash tail := by
  obtain ⟨cs, hcs, hpd⟩ := joinl_cleanAbs cfg [gs ("projects"), clean key] hcfg
  have hj : joinl [ProjectDirS cfg key, w] = renderA true (cs ++ [w]) := by
    rw [show ProjectDirS cfg key = joinl (cfg :: [gs ("projects"), clean key]) from rfl,
      hpd, joinl_push cs w hcs hw1 hw2 hw3 hw4]
  rw [hj] at h
  obtain ⟨tail, h1, h2, h3⟩ :=
    recordPath_inside cs w id p hcs ⟨hw1, hw2, hw3, hw4⟩ hwn h
  exact ⟨tail, h1, h2, by rw [hj, h3]⟩

/-- Counterexample to C7 as stated: the record identifier `"a/b"` contains
the path separator, yet both resolvers accept it — `Clean` leaves it
unchanged, it is not absolute, and its relative position does not begin with
`".."`, so it resolves to a nested path inside the collection directory. -/
theorem C7_separator_accepted_counterexample :
    ('/' ∈ gs ("a/b")) ∧
    IssuePath cfg0 keyK (gs ("a/b")) =
      ERes.ok (gs ("/cfg/projects/TEST-PROJ/issues/a/b.json")) ∧
    EpicPath cfg0 keyK (gs ("a/b")) =
      ERes.ok (gs ("/cfg/projects/TEST-PROJ/epics/a/b.json")) := by
  decide

/-- Claim C7 (amended): for both collection types the resolver rejects with
the invalid-identifier error every identifier whose lexical cleanup differs
from the input (which covers `"../../etc/passwd"`) and every absolute
identifier; every identifier it does accept resolves strictly inside the
collection directory (collection dir, separator, nonempty `".."`-free
remainder), and the plain identifier `"T-123"` resolves successfully — but
an identifier containing a path separator is not necessarily rejected:
a clean relative identifier such as `"a/b"` is accepted (see the
counterexample), resolving to a nested path inside the collection
directory. -/
theorem C7_resolver_amended :
    (∀ cfg key id, (¬ clean id = id ∨ isAbs (clean id) = true) →
      IssuePath cfg key id = ERes.err Err.invalidId ∧
      EpicPath cfg key id = ERes.err Err.invalidId) ∧
    (∀ cfg key id p, isAbs cfg = true → IssuePath cfg key id = ERes.ok p →
      ∃ tail, ¬ tail = [] ∧ AbsWfComps tail ∧
        p = IssuesDirS cfg key ++ '/' :: intercSlash tail) ∧
    (∀ cfg key id p, isAbs cfg = true → EpicPath cfg key id = ERes.ok p →
      ∃ tail, ¬ tail = [] ∧ AbsWfComps tail ∧
        p = EpicsDirS cfg key ++ '/' :: intercSlash tail) ∧
    IssuePath cfg0 keyK (gs ("T-123")) =
      ERes.ok (gs ("/cfg/projects/TEST-PROJ/issues/T-123.json")) ∧
    EpicPath cfg0 keyK (gs ("T-123")) =
      ERes.ok (gs ("/cfg/projects/TEST-PROJ/epics/T-123.json")) ∧
    IssuePath cfg0 keyK (gs ("../../etc/passwd")) = ERes.err Err.invalidId ∧
    EpicPath cfg0 keyK (gs ("../../etc/passwd")) = ERes.err Err.invalidId ∧
    IssuePath cfg0 keyK (gs ("/etc/passwd")) = ERes.err Err.invalidId ∧
    EpicPath cfg0 keyK (gs ("/etc/passwd")) = ERes.err Err.invalidId := by
  refine ⟨?_, ?_, ?_, by decide, by decide, by decide, by decide, by decide, by decide⟩
  · intro cfg key id hbad
    constructor
    · show recordPath (IssuesDirS cfg key) id = ERes.err Err.invalidId
      unfold recordPath
      rw [if_pos hbad]
    · show recordPath (EpicsDirS cfg key) id = ERes.err Err.invalidId
      unfold recordPath
      rw [if_pos hbad]
  · intro cfg key id p hcfg hok
    exact collPath_inside cfg key (gs ("issues")) id p hcfg (by decide) (by decide)
      (by decide) (by decide) (by decide) hok
  · intro cfg key id p hcfg hok
    exact collPath_inside cfg key (gs ("epics")) id p hcfg (by decide) (by decide)
      (by decide) (by decide) (by decide) hok

/-- Witness for the amended C7: the accepted `"T-123"` resolves inside the
issues directory. -/
theorem C7_resolver_amended_witness :
    ∃ tail, ¬ tail = [] ∧ AbsWfComps tail ∧
      gs ("/cfg/projects/TEST-PROJ/issues/T-123.json") =
        IssuesDirS cfg0 keyK ++ '/' :: intercSlash tail :=
  (C7_resolver_amended).2.1 cfg0 keyK (gs ("T-123"))
    (gs ("/cfg/projects/TEST-PROJ/issues/T-123.json")) (by decide) (by decide)

/-- Counterexample to C8 as stated: `ProjectDir` never compares the cleaned
project key with its pre-normalization form — the key `"a/../b"` cleans to
`"b"` (a difference), yet `ProjectDir` accepts it and returns the path built
from the cleaned key. -/
theorem C8_projectdir_accepts_counterexample :
    ¬ clean (gs ("a/../b")) = gs ("a/../b") ∧
    ProjectDir cfg0 (gs ("a/../b")) = ERes.ok (gs ("/cfg/projects/b")) := by
  decide

/-- Claim C8 (amended): record identifiers are lexically normalized and then
compared byte-for-byte against the pre-normalization form, any difference or
an absolute identifier being rejected as invalid — but this applies only to
record identifiers: the project-key argument of `ProjectDir` is only
normalized, never compared, and never rejected; `ProjectDir` returns a path
(built from the cleaned key) for every project key. -/
theorem C8_normalization_amended :
    (∀ cfg key, ProjectDir cfg key =
      ERes.ok (joinl [cfg, gs ("projects"), clean key])) ∧
    (∀ cfg key id, (¬ clean id = id ∨ isAbs (clean id) = true) →
      IssuePath cfg key id = ERes.err Err.invalidId ∧
      EpicPath cfg key id = ERes.err Err.invalidId) := by
  refine ⟨fun cfg key => rfl, ?_⟩
  intro cfg key id hbad
  constructor
  · show recordPath (IssuesDirS cfg key) id = ERes.err Err.invalidId
    unfold recordPath
    rw [if_pos hbad]
  · show recordPath (EpicsDirS cfg key) id = ERes.err Err.invalidId
    unfold recordPath
    rw [if_pos hbad]

/-- Witness for the amended C8: a key with redundant separators is accepted
by `ProjectDir` while the same string is rejected as a record identifier. -/
theorem C8_normalization_amended_witness :
    ProjectDir cfg0 (gs ("x//y")) =
      ERes.ok (joinl [cfg0, gs ("projects"), clean (gs ("x//y"))]) ∧
    IssuePath cfg0 keyK (gs ("x//y")) = ERes.err Err.invalidId :=
  ⟨(C8_normalization_amended).1 cfg0 (gs ("x//y")),
   ((C8_normalization_amended).2 cfg0 keyK (gs ("x//y")) (by decide)).1⟩
